import Mathlib

/-!
Verification of the yaml-split streaming transcoder and document chunker.

This file gives a shallow embedding of the Rust sources:

* `src/encoding.rs` — encoding detection (`Encoding::detect`), the streaming
  UTF-16 and UTF-32 decoders (`UTF16Decoder`, `UTF32Decoder`), the streaming
  UTF-8 re-encoder (`UTF8Encoder`) and the `Transcoder` facade;
* `src/chunk.rs` — the capturing `ChunkReader` with `trim_to_start` and
  `take_to_end`.

Byte streams are `List Nat` (each element a `u8` value), readers are pure
state-passing functions, `io::Result` is `Except Err`, and Rust iterators
(`Iterator<Item = io::Result<char>>`) are step functions
`σ → Option (Except Err Nat) × σ` where a `char` is modelled by its Unicode
scalar value as a `Nat`.
-/

namespace YamlSplit

/-- Possible text encodings of a YAML 1.2 stream, mirroring `enum Encoding`
in `src/encoding.rs`. -/
inductive Encoding where
  | UTF8
  | UTF16BE
  | UTF16LE
  | UTF32BE
  | UTF32LE
deriving DecidableEq, Repr

/-- Endianness of UTF-16 or UTF-32 text, mirroring `enum Endianness`. -/
inductive Endianness where
  | big
  | little
deriving DecidableEq, Repr

/-- Errors produced by the decoding pipeline: `EncodingError { unit, pos }`
(an invalid or unexpected code unit at a byte position) and
`io::ErrorKind::UnexpectedEof`. -/
inductive Err where
  | encodingError (unit : Nat) (pos : Nat)
  | unexpectedEof
deriving DecidableEq, Repr

/-- Second stage of `Encoding::detect`: the two-byte patterns, mirroring the
second `match` in `src/encoding.rs` (arm order preserved as an ordered
if-chain, each arm's two patterns joined by a disjunction). -/
def detect2 (p : List Nat) : Encoding :=
  match p with
  | b0 :: b1 :: _ =>
    if (b0 = 0xFE ∧ b1 = 0xFF) ∨ b0 = 0 then Encoding.UTF16BE
    else if (b0 = 0xFF ∧ b1 = 0xFE) ∨ b1 = 0 then Encoding.UTF16LE
    else Encoding.UTF8
  | _ => Encoding.UTF8

/-- Embedding of `Encoding::detect` from `src/encoding.rs`: examine up to 4
leading bytes, falling back to the 2-byte patterns and finally UTF-8.  The
Rust `match` arms are translated in order. -/
def detect (p : List Nat) : Encoding :=
  match p with
  | b0 :: b1 :: b2 :: b3 :: _ =>
    if (b0 = 0 ∧ b1 = 0 ∧ b2 = 0xFE ∧ b3 = 0xFF) ∨ (b0 = 0 ∧ b1 = 0 ∧ b2 = 0) then
      Encoding.UTF32BE
    else if (b0 = 0xFF ∧ b1 = 0xFE ∧ b2 = 0 ∧ b3 = 0) ∨ (b1 = 0 ∧ b2 = 0 ∧ b3 = 0) then
      Encoding.UTF32LE
    else detect2 p
  | _ => detect2 p

/-- State of `UTF16Decoder` from `src/encoding.rs`: the remaining source
bytes, the cumulative byte position `pos`, the endianness, and the retained
lead candidate `buf`. -/
structure U16State where
  source : List Nat
  pos : Nat
  endianness : Endianness
  buf : Option Nat
deriving DecidableEq, Repr

/-- Embedding of `Endianness::decode_u16`. -/
def decodeU16 (e : Endianness) (b0 b1 : Nat) : Nat :=
  match e with
  | Endianness.big => 256 * b0 + b1
  | Endianness.little => 256 * b1 + b0

/-- Embedding of `UTF16Decoder::next_u16`: empty source reports end of
stream; a lone trailing byte makes `read_exact` fail with `UnexpectedEof`
(consuming the byte, without advancing `pos`); otherwise two bytes are
consumed and decoded in the declared byte order. -/
def nextU16 (st : U16State) : Except Err (Option Nat) × U16State :=
  match st.source with
  | [] => (Except.ok none, st)
  | [_] => (Except.error Err.unexpectedEof, { st with source := [] })
  | b0 :: b1 :: rest =>
    (Except.ok (some (decodeU16 st.endianness b0 b1)),
     { st with source := rest, pos := st.pos + 2 })

/-- Body of `UTF16Decoder::next` after the lead code unit has been obtained
(either from `buf` or freshly read); `pos` is the value of `self.pos`
captured before the lead was obtained. -/
def u16NextLead (st : U16State) (lead : Nat) (pos : Nat) :
    Option (Except Err Nat) × U16State :=
  if lead < 0xD800 ∨ 0xDFFF < lead then
    (some (Except.ok lead), st)
  else if 0xDC00 ≤ lead then
    (some (Except.error (Err.encodingError lead pos)), st)
  else
    let pos2 := st.pos
    match nextU16 st with
    | (Except.ok none, st') => (some (Except.error Err.unexpectedEof), st')
    | (Except.error e, st') => (some (Except.error e), st')
    | (Except.ok (some trail), st') =>
      if trail < 0xDC00 ∨ 0xDFFF < trail then
        (some (Except.error (Err.encodingError trail pos2)), { st' with buf := some trail })
      else
        (some (Except.ok (0x10000 + (((lead - 0xD800) <<< 10) ||| (trail - 0xDC00)))), st')

/-- Embedding of `<UTF16Decoder as Iterator>::next` from `src/encoding.rs`. -/
def u16Next (st : U16State) : Option (Except Err Nat) × U16State :=
  let pos := st.pos
  match st.buf with
  | some u => u16NextLead { st with buf := none } u pos
  | none =>
    match nextU16 st with
    | (Except.ok none, st') => (none, st')
    | (Except.error e, st') => (some (Except.error e), st')
    | (Except.ok (some u), st') => u16NextLead st' u pos

/-- State of `UTF32Decoder` from `src/encoding.rs`. -/
structure U32State where
  source : List Nat
  pos : Nat
  endianness : Endianness
deriving DecidableEq, Repr

/-- Embedding of `Endianness::decode_u32`. -/
def decodeU32 (e : Endianness) (b0 b1 b2 b3 : Nat) : Nat :=
  match e with
  | Endianness.big => ((256 * b0 + b1) * 256 + b2) * 256 + b3
  | Endianness.little => ((256 * b3 + b2) * 256 + b1) * 256 + b0

/-- Embedding of `<UTF32Decoder as Iterator>::next`: empty source is end of
stream; fewer than four remaining bytes makes `read_exact` fail with
`UnexpectedEof`; otherwise the unit is validated exactly as
`char::from_u32` does (rejecting surrogates and values above `0x10FFFF`). -/
def u32Next (st : U32State) : Option (Except Err Nat) × U32State :=
  match st.source with
  | [] => (none, st)
  | b0 :: b1 :: b2 :: b3 :: rest =>
    let pos := st.pos
    let unit := decodeU32 st.endianness b0 b1 b2 b3
    let st' : U32State := { st with source := rest, pos := st.pos + 4 }
    if unit < 0x110000 ∧ (unit < 0xD800 ∨ 0xDFFF < unit) then
      (some (Except.ok unit), st')
    else
      (some (Except.error (Err.encodingError unit pos)), st')
  | _ => (some (Except.error Err.unexpectedEof), { st with source := [] })

/-- UTF-8 encoding of one Unicode scalar value, mirroring
`char::encode_utf8` (between 1 and 4 bytes). -/
def encodeUtf8 (c : Nat) : List Nat :=
  if c < 0x80 then [c]
  else if c < 0x800 then
    [0xC0 + c / 64, 0x80 + c % 64]
  else if c < 0x10000 then
    [0xE0 + c / 4096, 0x80 + c / 64 % 64, 0x80 + c % 64]
  else
    [0xF0 + c / 262144, 0x80 + c / 4096 % 64, 0x80 + c / 64 % 64, 0x80 + c % 64]

/-- State of `UTF8Encoder` from `src/encoding.rs`: the scalar-value source,
the unread part of the carry-over `remainder` buffer, and the `started`
flag guarding the one-time BOM check. -/
structure EncState (σ : Type) where
  source : σ
  remainder : List Nat
  started : Bool
deriving DecidableEq, Repr

/-- Embedding of `UTF8Encoder::new`. -/
def encNew {σ : Type} (source : σ) : EncState σ :=
  { source := source, remainder := [], started := false }

/-- Embedding of `UTF8Encoder::next_char`: once started, pull from the
source directly; on the very first pull, a leading U+FEFF is skipped and
the following item is returned instead. -/
def nextChar {σ : Type} (f : σ → Option (Except Err Nat) × σ) (st : EncState σ) :
    Option (Except Err Nat) × EncState σ :=
  if st.started then
    let (r, s') := f st.source
    (r, { st with source := s' })
  else
    let (r, s') := f st.source
    match r with
    | some (Except.ok c) =>
      if c = 0xFEFF then
        let (r2, s2) := f s'
        (r2, { st with started := true, source := s2 })
      else
        (r, { st with started := true, source := s' })
    | _ => (r, { st with started := true, source := s' })

/-- Result combinator for the encoder loops: apply `g` to the bytes of a
successful sub-read, keep errors (and their states) as they are.  This
models the Rust pattern of accumulating `written` across loop iterations
while an `Err` return discards the count but keeps the mutated state. -/
def afterOk {σ : Type} (g : List Nat → List Nat) :
    Except Err (List Nat) × EncState σ → Except Err (List Nat) × EncState σ
  | (Except.ok out, st) => (Except.ok (g out), st)
  | (Except.error e, st) => (Except.error e, st)

/-- Embedding of the two emission loops of `UTF8Encoder::read`
(`src/encoding.rs` lines 186-218), for a destination buffer with `n` bytes
of remaining space and an already-drained carry buffer.

While at least `MAX_UTF8_ENCODED_LEN = 4` bytes of space remain, whole
characters are encoded directly into the destination; afterwards, for the
final partial window, a character is encoded into a scratch buffer, as many
bytes as fit are emitted, and the rest is stored in `remainder`.

Every loop iteration of the Rust code writes at least one byte into the
remaining space, so the remaining length `n` bounds the number of
iterations; `fuel` makes that bound explicit (every caller passes
`fuel = n`, which by this argument never runs out). -/
def encLoopF {σ : Type} (f : σ → Option (Except Err Nat) × σ) :
    Nat → Nat → EncState σ → Except Err (List Nat) × EncState σ
  | 0, _, st => (Except.ok [], st)
  | fuel + 1, n, st =>
    if 4 ≤ n then
      match nextChar f st with
      | (none, st') => (Except.ok [], st')
      | (some (Except.error e), st') => (Except.error e, st')
      | (some (Except.ok c), st') =>
        let bs := encodeUtf8 c
        afterOk (fun out => bs ++ out) (encLoopF f fuel (n - bs.length) st')
    else if n = 0 then (Except.ok [], st)
    else
      match nextChar f st with
      | (none, st') => (Except.ok [], st')
      | (some (Except.error e), st') => (Except.error e, st')
      | (some (Except.ok c), st') =>
        let bs := encodeUtf8 c
        let emit := min bs.length n
        if emit < n then
          afterOk (fun out => bs.take emit ++ out) (encLoopF f fuel (n - emit) st')
        else
          (Except.ok (bs.take emit), { st' with remainder := bs.drop emit })

/-- Embedding of `UTF8Encoder::read` from `src/encoding.rs` for a
destination buffer of length `n`: first drain the carry-over `remainder`
(returning early if it still is not empty), then run the emission loops on
the remaining space. -/
def encRead {σ : Type} (f : σ → Option (Except Err Nat) × σ) (n : Nat) (st : EncState σ) :
    Except Err (List Nat) × EncState σ :=
  if st.remainder.isEmpty then
    encLoopF f n n st
  else
    let k := min st.remainder.length n
    let out1 := st.remainder.take k
    let st1 := { st with remainder := st.remainder.drop k }
    if st1.remainder.isEmpty then
      afterOk (fun out => out1 ++ out) (encLoopF f (n - k) (n - k) st1)
    else
      (Except.ok out1, st1)

/-- State of the `Transcoder` facade from `src/encoding.rs`: a passthrough
for UTF-8, or a `UTF8Encoder` over a UTF-16 or UTF-32 decoder. -/
inductive TState where
  | passthrough (source : List Nat)
  | fromUTF16 (st : EncState U16State)
  | fromUTF32 (st : EncState U32State)
deriving DecidableEq, Repr

/-- Embedding of `Transcoder::new` with a known source encoding. -/
def transcoderNew (e : Encoding) (reader : List Nat) : TState :=
  match e with
  | Encoding.UTF8 => TState.passthrough reader
  | Encoding.UTF16BE => TState.fromUTF16 (encNew ⟨reader, 0, Endianness.big, none⟩)
  | Encoding.UTF16LE => TState.fromUTF16 (encNew ⟨reader, 0, Endianness.little, none⟩)
  | Encoding.UTF32BE => TState.fromUTF32 (encNew ⟨reader, 0, Endianness.big⟩)
  | Encoding.UTF32LE => TState.fromUTF32 (encNew ⟨reader, 0, Endianness.little⟩)

/-- Embedding of `<Transcoder as Read>::read` with a destination buffer of
length `n`; the passthrough case models a list-backed reader that returns
as many bytes as are available, up to `n`. -/
def transRead (n : Nat) (st : TState) : Except Err (List Nat) × TState :=
  match st with
  | TState.passthrough src => (Except.ok (src.take n), TState.passthrough (src.drop n))
  | TState.fromUTF16 est =>
    let (r, est') := encRead u16Next n est
    (r, TState.fromUTF16 est')
  | TState.fromUTF32 est =>
    let (r, est') := encRead u32Next n est
    (r, TState.fromUTF32 est')

/-- Reading the transcoder to exhaustion: repeatedly call `transRead` until
a read returns no bytes, concatenating the bytes of successful reads.  An
error return ends the run as an error (its bytes are lost, as in Rust).
The `fuel` bound doubles as the buffer size of each call, so any output of
length at most `fuel` is fully collected. -/
def transReadAllF : Nat → TState → Except Err (List Nat) × TState
  | 0, st => (Except.ok [], st)
  | fuel + 1, st =>
    match transRead (fuel + 1) st with
    | (Except.ok [], st') => (Except.ok [], st')
    | (Except.ok out, st') =>
      match transReadAllF fuel st' with
      | (Except.ok rest, st'') => (Except.ok (out ++ rest), st'')
      | (Except.error e, st'') => (Except.error e, st'')
    | (Except.error e, st') => (Except.error e, st')

/-- Run a schedule of reads against the transcoder: perform one `transRead`
per buffer size in `ns`, concatenating the bytes yielded by successful
reads; a read that returns an error yields no bytes for that call but the
run continues from the post-error state, exactly as a Rust caller that
keeps calling `read` would observe. -/
def transReadSeq : List Nat → TState → List Nat × TState
  | [], st => ([], st)
  | n :: ns, st =>
    match transRead n st with
    | (Except.ok out, st') =>
      let (rest, st'') := transReadSeq ns st'
      (out ++ rest, st'')
    | (Except.error _, st') => transReadSeq ns st'

/-- State of `ChunkReader` from `src/chunk.rs`: the remaining bytes of the
underlying canonical stream, the capture buffer, and the global offset of
the capture buffer's first byte. -/
structure ChunkReader where
  reader : List Nat
  capture : List Nat
  captureStartPos : Nat
deriving DecidableEq, Repr

/-- Embedding of `ChunkReader::new`. -/
def chunkReaderNew (reader : List Nat) : ChunkReader :=
  { reader := reader, capture := [], captureStartPos := 0 }

/-- Embedding of `<ChunkReader as Read>::read`: the underlying reader
returns up to `k` bytes, which are appended to the capture buffer and
handed to the caller. -/
def crRead (k : Nat) (st : ChunkReader) : List Nat × ChunkReader :=
  let chunk := st.reader.take k
  (chunk, { st with reader := st.reader.drop k, capture := st.capture ++ chunk })

/-- Embedding of `ChunkReader::trim_to_start`: drop the
`pos - capture_start_pos` leading bytes of the capture buffer and advance
`capture_start_pos` to `pos`. -/
def trimToStart (pos : Nat) (st : ChunkReader) : ChunkReader :=
  let excessStartLen := pos - st.captureStartPos
  { st with captureStartPos := pos, capture := st.capture.drop excessStartLen }

/-- Embedding of `ChunkReader::take_to_end`: split the capture buffer at
`pos - capture_start_pos`, return the front, keep the tail, and advance
`capture_start_pos` to `pos`. -/
def takeToEnd (pos : Nat) (st : ChunkReader) : List Nat × ChunkReader :=
  let takeLen := pos - st.captureStartPos
  (st.capture.take takeLen,
   { st with captureStartPos := pos, capture := st.capture.drop takeLen })

/-- UTF-8 encoding of a sequence of Unicode scalar values (the reference
meaning of re-encoding decoded text as UTF-8). -/
def utf8Encode : List Nat → List Nat
  | [] => []
  | c :: cs => encodeUtf8 c ++ utf8Encode cs

/-- Removal of a single leading byte-order mark (U+FEFF) from a scalar
sequence, the content transformation guaranteed by the transcoder. -/
def stripLeadingBom : List Nat → List Nat
  | [] => []
  | c :: cs => if c = 0xFEFF then cs else c :: cs

/-- Every element is a Unicode scalar value: below `0x110000` and outside
the surrogate range. -/
def AllScalar (cs : List Nat) : Prop :=
  ∀ c ∈ cs, c < 0x110000 ∧ (c < 0xD800 ∨ 0xDFFF < c)

/-- A byte sequence is valid UTF-8 exactly when it is the UTF-8 encoding of
some sequence of Unicode scalar values. -/
def Utf8Valid (bs : List Nat) : Prop :=
  ∃ cs, AllScalar cs ∧ bs = utf8Encode cs

/-- Every element is a valid octet (`u8`) value. -/
def ValidBytes (bs : List Nat) : Prop :=
  ∀ b ∈ bs, b < 256

/-- The iterator step function `f`, started from state `s`, yields exactly
the scalar values `cs` (all successful) and then reports end of stream,
remaining at a stable end state. -/
inductive Yields {σ : Type} (f : σ → Option (Except Err Nat) × σ) : σ → List Nat → Prop where
  | nil {s : σ} : f s = (none, s) → Yields f s []
  | cons {s s' : σ} {c : Nat} {cs : List Nat} :
      f s = (some (Except.ok c), s') → Yields f s' cs → Yields f s (c :: cs)

/-- The characters still to be produced by `next_char`: the source's yield,
with the leading BOM stripped when the one-time check has not fired yet. -/
def EYields {σ : Type} (f : σ → Option (Except Err Nat) × σ) (st : EncState σ)
    (ecs : List Nat) : Prop :=
  ∃ cs, Yields f st.source cs ∧ ecs = if st.started then cs else stripLeadingBom cs

/-- The bytes still to be produced by the UTF-8 re-encoder: the carry-over
remainder followed by the UTF-8 encoding of the pending characters. -/
def EPends {σ : Type} (f : σ → Option (Except Err Nat) × σ) (st : EncState σ)
    (bs : List Nat) : Prop :=
  ∃ ecs, EYields f st ecs ∧ bs = st.remainder ++ utf8Encode ecs

/-- The bytes still to be produced by the transcoder facade. -/
def TPends (st : TState) (bs : List Nat) : Prop :=
  match st with
  | TState.passthrough src => bs = src
  | TState.fromUTF16 est => EPends u16Next est bs
  | TState.fromUTF32 est => EPends u32Next est bs

/-- Decoding relation used to state transcoder claims: the stream's decoder
(for a non-UTF-8 encoding) yields exactly the scalar values `cs` with no
error.  There is no UTF-8 decoder in the pipeline (UTF-8 input is passed
through), so the UTF8 case is empty. -/
def decodesTo : Encoding → List Nat → List Nat → Prop
  | Encoding.UTF8, _, _ => False
  | Encoding.UTF16BE, bytes, cs => Yields u16Next ⟨bytes, 0, Endianness.big, none⟩ cs
  | Encoding.UTF16LE, bytes, cs => Yields u16Next ⟨bytes, 0, Endianness.little, none⟩ cs
  | Encoding.UTF32BE, bytes, cs => Yields u32Next ⟨bytes, 0, Endianness.big⟩ cs
  | Encoding.UTF32LE, bytes, cs => Yields u32Next ⟨bytes, 0, Endianness.little⟩ cs

/-- Reference byte serialization of one UTF-16 code unit. -/
def u16Bytes (e : Endianness) (u : Nat) : List Nat :=
  match e with
  | Endianness.big => [u / 256, u % 256]
  | Endianness.little => [u % 256, u / 256]

/-- Reference byte serialization of a sequence of UTF-16 code units. -/
def u16BytesAll (e : Endianness) : List Nat → List Nat
  | [] => []
  | u :: us => u16Bytes e u ++ u16BytesAll e us

/-- Reference UTF-16 encoding of one scalar value as code units: a single
unit below `0x10000`, a surrogate pair otherwise. -/
def utf16EncodeChar (c : Nat) : List Nat :=
  if c < 0x10000 then [c]
  else [0xD800 + (c - 0x10000) / 1024, 0xDC00 + (c - 0x10000) % 1024]

/-- Reference UTF-16 encoding of a scalar sequence as code units. -/
def utf16Units : List Nat → List Nat
  | [] => []
  | c :: cs => utf16EncodeChar c ++ utf16Units cs

/-- Reference byte serialization of one UTF-32 code unit. -/
def u32Bytes (e : Endianness) (u : Nat) : List Nat :=
  match e with
  | Endianness.big => [u / 16777216 % 256, u / 65536 % 256, u / 256 % 256, u % 256]
  | Endianness.little => [u % 256, u / 256 % 256, u / 65536 % 256, u / 16777216 % 256]

/-- Reference byte serialization of a scalar sequence as UTF-32. -/
def u32BytesAll (e : Endianness) : List Nat → List Nat
  | [] => []
  | c :: cs => u32Bytes e c ++ u32BytesAll e cs

/-- Whether the canonical serialization for an encoding carries a BOM: the
UTF-16/UTF-32 forms are written with one, plain UTF-8 without. -/
def usesBom : Encoding → Bool
  | Encoding.UTF8 => false
  | _ => true

/-- Reference function of round-trip claims: write the scalar sequence `T`
in the byte order of encoding `e`, optionally preceded by a BOM. -/
def encodeAs (e : Encoding) (withBom : Bool) (T : List Nat) : List Nat :=
  let T' := (if withBom then [0xFEFF] else []) ++ T
  match e with
  | Encoding.UTF8 => utf8Encode T'
  | Encoding.UTF16BE => u16BytesAll Endianness.big (utf16Units T')
  | Encoding.UTF16LE => u16BytesAll Endianness.little (utf16Units T')
  | Encoding.UTF32BE => u32BytesAll Endianness.big T'
  | Encoding.UTF32LE => u32BytesAll Endianness.little T'

/-- Modelled from the spec: the 2-byte stage of the detection rule as the
claim states it ("if at least 2 bytes are available it returns UTF16BE for
[FE,FF] or [00,_] and UTF16LE for [FF,FE] or [_,00]"), cases tried in the
listed order. -/
def detect2Spec (p : List Nat) : Encoding :=
  if 2 ≤ p.length then
    if p.take 2 = [0xFE, 0xFF] ∨ p.take 1 = [0] then Encoding.UTF16BE
    else if p.take 2 = [0xFF, 0xFE] ∨ (p.drop 1).take 1 = [0] then Encoding.UTF16LE
    else Encoding.UTF8
  else Encoding.UTF8

/-- Modelled from the spec: the detection rule exactly as the claim states
it — with at least 4 bytes, UTF32BE for [00,00,FE,FF] or [00,00,00,_] and
UTF32LE for [FF,FE,00,00] or [_,00,00,00] (listed order); otherwise the
2-byte stage; otherwise UTF8. -/
def detectSpec (p : List Nat) : Encoding :=
  if 4 ≤ p.length then
    if p.take 4 = [0, 0, 0xFE, 0xFF] ∨ p.take 3 = [0, 0, 0] then Encoding.UTF32BE
    else if p.take 4 = [0xFF, 0xFE, 0, 0] ∨ (p.drop 1).take 3 = [0, 0, 0] then Encoding.UTF32LE
    else detect2Spec p
  else detect2Spec p

/-- Invariant of the capturing reader relative to the full canonical stream
`C`: the portion of `C` not yet read is exactly the suffix after
`capture_start_pos + capture.len()` bytes (so that sum equals the total
bytes read so far), and the capture buffer holds exactly the canonical
bytes in `[capture_start_pos, capture_start_pos + capture.len())`. -/
def crInv (C : List Nat) (st : ChunkReader) : Prop :=
  st.captureStartPos + st.capture.length ≤ C.length ∧
  st.reader = C.drop (st.captureStartPos + st.capture.length) ∧
  st.capture = (C.drop st.captureStartPos).take st.capture.length

/-- Well-formedness of a UTF-16 decoder state: source bytes are octets and
any retained lead candidate is a 16-bit code unit. -/
def u16WF (st : U16State) : Prop :=
  ValidBytes st.source ∧ ∀ u, st.buf = some u → u < 0x10000

/-- Each scalar value encodes to at least one UTF-8 byte. -/
theorem encodeUtf8_length_pos (c : Nat) : 1 ≤ (encodeUtf8 c).length := by
  unfold encodeUtf8
  split_ifs <;> simp

/-- Each scalar value encodes to at most four UTF-8 bytes. -/
theorem encodeUtf8_length_le (c : Nat) : (encodeUtf8 c).length ≤ 4 := by
  unfold encodeUtf8
  split_ifs <;> simp

/-- Combination of disjoint bit ranges: a left shift joined by bitwise or
with a value below the shift amount is plain addition. -/
theorem shiftLeft_lor_of_lt {k a b : Nat} (h : b < 2 ^ k) :
    (a <<< k) ||| b = a * 2 ^ k + b := by
  induction k generalizing a b with
  | zero =>
    have hb : b = 0 := by omega
    subst hb
    simp [Nat.shiftLeft_eq]
  | succ k ih =>
    have hbit : Nat.bit b.bodd b.div2 = b := Nat.bit_decomp b
    have hdiv : b.div2 < 2 ^ k := by
      rw [Nat.div2_val]
      rw [pow_succ] at h
      omega
    have hsh : a <<< (k + 1) = Nat.bit false (a <<< k) := by
      rw [Nat.shiftLeft_eq, Nat.shiftLeft_eq, Nat.bit_val, Bool.toNat_false, pow_succ]
      ring
    calc a <<< (k + 1) ||| b
        = Nat.bit false (a <<< k) ||| Nat.bit b.bodd b.div2 := by rw [hsh, hbit]
      _ = Nat.bit (false || b.bodd) ((a <<< k) ||| b.div2) := Nat.lor_bit _ _ _ _
      _ = Nat.bit b.bodd (a * 2 ^ k + b.div2) := by rw [Bool.false_or, ih hdiv]
      _ = a * 2 ^ (k + 1) + b := by
          have hp : a * 2 ^ (k + 1) = 2 * (a * 2 ^ k) := by rw [pow_succ]; ring
          rw [Nat.bit_val] at hbit ⊢
          omega

/-- Step lemma for `next_char` at end of stream: if no characters are
pending, `next_char` reports end of stream and preserves the pending-chars
relation and the carry buffer. -/
theorem eyields_nil_step {σ : Type} {f : σ → Option (Except Err Nat) × σ} {st : EncState σ}
    (h : EYields f st []) :
    ∃ st', nextChar f st = (none, st') ∧ EYields f st' [] ∧ st'.remainder = st.remainder := by
  obtain ⟨src, rem, started⟩ := st
  obtain ⟨cs, hy, he⟩ := h
  simp only at hy he
  cases started with
  | true =>
    rw [if_pos rfl] at he
    subst he
    cases hy with
    | nil hf =>
      refine ⟨⟨src, rem, true⟩, ?_, ⟨[], Yields.nil hf, by simp⟩, rfl⟩
      simp [nextChar, hf]
  | false =>
    simp only [Bool.false_eq_true, if_false] at he
    cases cs with
    | nil =>
      cases hy with
      | nil hf =>
        refine ⟨⟨src, rem, true⟩, ?_, ⟨[], Yields.nil hf, by simp⟩, rfl⟩
        simp [nextChar, hf]
    | cons c cs' =>
      by_cases hbom : c = 0xFEFF
      · subst hbom
        rw [stripLeadingBom, if_pos rfl] at he
        subst he
        cases hy with
        | cons hf1 hy2 =>
          cases hy2 with
          | nil hf2 =>
            refine ⟨⟨_, rem, true⟩, ?_, ⟨[], Yields.nil hf2, by simp⟩, rfl⟩
            simp [nextChar, hf1, hf2]
      · exfalso
        rw [stripLeadingBom, if_neg hbom] at he
        exact List.noConfusion he

/-- Step lemma for `next_char` with a pending character: it is produced
unchanged and the pending-chars relation advances, preserving the carry
buffer. -/
theorem eyields_cons_step {σ : Type} {f : σ → Option (Except Err Nat) × σ} {st : EncState σ}
    {c : Nat} {ecs : List Nat} (h : EYields f st (c :: ecs)) :
    ∃ st', nextChar f st = (some (Except.ok c), st') ∧ EYields f st' ecs ∧
      st'.remainder = st.remainder := by
  obtain ⟨src, rem, started⟩ := st
  obtain ⟨cs, hy, he⟩ := h
  simp only at hy he
  cases started with
  | true =>
    rw [if_pos rfl] at he
    subst he
    cases hy with
    | cons hf1 hy2 =>
      refine ⟨⟨_, rem, true⟩, ?_, ⟨_, hy2, by simp⟩, rfl⟩
      simp [nextChar, hf1]
  | false =>
    simp only [Bool.false_eq_true, if_false] at he
    cases cs with
    | nil =>
      exfalso
      rw [stripLeadingBom] at he
      exact List.noConfusion he
    | cons c0 cs' =>
      by_cases hbom : c0 = 0xFEFF
      · subst hbom
        rw [stripLeadingBom, if_pos rfl] at he
        subst he
        cases hy with
        | cons hf1 hy2 =>
          cases hy2 with
          | cons hf2 hy3 =>
            refine ⟨⟨_, rem, true⟩, ?_, ⟨_, hy3, by simp⟩, rfl⟩
            simp [nextChar, hf1, hf2]
      · rw [stripLeadingBom, if_neg hbom] at he
        injection he with h1 h2
        subst h1
        subst h2
        cases hy with
        | cons hf1 hy2 =>
          refine ⟨⟨_, rem, true⟩, ?_, ⟨_, hy2, by simp⟩, rfl⟩
          simp [nextChar, hf1, hbom]

/-- Correctness of the emission loops: started from a state with a drained
carry buffer and pending characters `ecs` (yielded without error), a loop
run for a buffer of size `n` (with adequate fuel) produces exactly the
first `n` bytes of the UTF-8 encoding of `ecs`, and the rest stays
pending. -/
theorem encLoopF_spec {σ : Type} (f : σ → Option (Except Err Nat) × σ) :
    ∀ (fuel n : Nat) (st : EncState σ) (ecs : List Nat),
      n ≤ fuel → EYields f st ecs → st.remainder = [] →
      ∃ st', encLoopF f fuel n st = (Except.ok ((utf8Encode ecs).take n), st') ∧
        EPends f st' ((utf8Encode ecs).drop n) := by
  intro fuel
  induction fuel with
  | zero =>
    intro n st ecs hn hy hr
    have hn0 : n = 0 := by omega
    subst hn0
    exact ⟨st, by simp [encLoopF], ⟨ecs, hy, by rw [hr]; simp⟩⟩
  | succ fuel ih =>
    intro n st ecs hn hy hr
    by_cases h4 : 4 ≤ n
    · cases ecs with
      | nil =>
        obtain ⟨st₂, hstep, hy2, hrem2⟩ := eyields_nil_step hy
        refine ⟨st₂, ?_, ⟨[], hy2, by rw [hrem2, hr]; simp [utf8Encode]⟩⟩
        simp [encLoopF, h4, hstep, utf8Encode]
      | cons c rest =>
        obtain ⟨st₂, hstep, hy2, hrem2⟩ := eyields_cons_step hy
        have h1 : 1 ≤ (encodeUtf8 c).length := encodeUtf8_length_pos c
        have hle4 : (encodeUtf8 c).length ≤ 4 := encodeUtf8_length_le c
        obtain ⟨st₃, hrec, hp⟩ :=
          ih (n - (encodeUtf8 c).length) st₂ rest (by omega) hy2 (by rw [hrem2, hr])
        refine ⟨st₃, ?_, ?_⟩
        · simp only [encLoopF, if_pos h4, hstep]
          rw [hrec]
          simp only [afterOk]
          rw [utf8Encode, List.take_append_eq_append_take,
            List.take_of_length_le (by omega : (encodeUtf8 c).length ≤ n)]
        · have hdrop : (utf8Encode (c :: rest)).drop n
              = (utf8Encode rest).drop (n - (encodeUtf8 c).length) := by
            rw [utf8Encode, List.drop_append_eq_append_drop,
              List.drop_eq_nil_of_le (by omega : (encodeUtf8 c).length ≤ n)]
            simp
          rw [hdrop]
          exact hp
    · by_cases h0 : n = 0
      · subst h0
        exact ⟨st, by simp [encLoopF, h4], ⟨ecs, hy, by rw [hr]; simp⟩⟩
      · cases ecs with
        | nil =>
          obtain ⟨st₂, hstep, hy2, hrem2⟩ := eyields_nil_step hy
          refine ⟨st₂, ?_, ⟨[], hy2, by rw [hrem2, hr]; simp [utf8Encode]⟩⟩
          simp [encLoopF, h4, h0, hstep, utf8Encode]
        | cons c rest =>
          obtain ⟨st₂, hstep, hy2, hrem2⟩ := eyields_cons_step hy
          have h1 : 1 ≤ (encodeUtf8 c).length := encodeUtf8_length_pos c
          by_cases hemit : min (encodeUtf8 c).length n < n
          · have hminl : min (encodeUtf8 c).length n = (encodeUtf8 c).length := by omega
            obtain ⟨st₃, hrec, hp⟩ :=
              ih (n - (encodeUtf8 c).length) st₂ rest (by omega) hy2 (by rw [hrem2, hr])
            refine ⟨st₃, ?_, ?_⟩
            · simp only [encLoopF, if_neg h4, if_neg h0, hstep]
              rw [hminl, List.take_length]
              rw [hrec]
              simp only [afterOk]
              rw [if_pos (by omega : (encodeUtf8 c).length < n)]
              rw [utf8Encode, List.take_append_eq_append_take,
                List.take_of_length_le (by omega : (encodeUtf8 c).length ≤ n)]
            · have hdrop : (utf8Encode (c :: rest)).drop n
                  = (utf8Encode rest).drop (n - (encodeUtf8 c).length) := by
                rw [utf8Encode, List.drop_append_eq_append_drop,
                  List.drop_eq_nil_of_le (by omega : (encodeUtf8 c).length ≤ n)]
                simp
              rw [hdrop]
              exact hp
          · have hminn : min (encodeUtf8 c).length n = n := by omega
            have hlen : n ≤ (encodeUtf8 c).length := by omega
            refine ⟨{ st₂ with remainder := (encodeUtf8 c).drop n }, ?_, ?_⟩
            · simp only [encLoopF, if_neg h4, if_neg h0, hstep]
              rw [hminn, if_neg (by omega : ¬ n < n)]
              rw [utf8Encode, List.take_append_eq_append_take,
                Nat.sub_eq_zero_of_le hlen]
              simp
            · refine ⟨rest, ?_, ?_⟩
              · exact hy2
              · rw [utf8Encode, List.drop_append_eq_append_drop,
                  Nat.sub_eq_zero_of_le hlen]
                simp

/-- Correctness of one `UTF8Encoder::read` call: with pending bytes `bs`,
a read into a buffer of length `n` returns exactly the first `n` of them
and leaves the rest pending. -/
theorem encRead_spec {σ : Type} {f : σ → Option (Except Err Nat) × σ} {st : EncState σ}
    {bs : List Nat} (n : Nat) (h : EPends f st bs) :
    ∃ st', encRead f n st = (Except.ok (bs.take n), st') ∧ EPends f st' (bs.drop n) := by
  obtain ⟨src, rem, started⟩ := st
  obtain ⟨ecs, hy, hbs⟩ := h
  simp only at hbs
  by_cases hrem : rem = []
  · subst hrem
    simp only [List.nil_append] at hbs
    subst hbs
    obtain ⟨st', h1, h2⟩ := encLoopF_spec f n n ⟨src, [], started⟩ ecs le_rfl hy rfl
    refine ⟨st', ?_, h2⟩
    simp only [encRead, List.isEmpty_nil, if_pos]
    exact h1
  · by_cases hk : rem.length ≤ n
    · subst hbs
      have hmin : min rem.length n = rem.length := Nat.min_eq_left hk
      obtain ⟨st', h1, h2⟩ :=
        encLoopF_spec f (n - rem.length) (n - rem.length) ⟨src, [], started⟩ ecs le_rfl hy rfl
      refine ⟨st', ?_, ?_⟩
      · simp only [encRead, hmin, List.drop_length, List.isEmpty_nil, if_pos]
        rw [if_neg (by simp [hrem] : ¬ (rem.isEmpty = true))]
        rw [h1]
        simp only [afterOk]
        rw [List.take_append_eq_append_take, List.take_of_length_le hk, List.take_length]
      · rw [List.drop_append_eq_append_drop, List.drop_eq_nil_of_le hk]
        simpa using h2
    · subst hbs
      have hmin : min rem.length n = n := Nat.min_eq_right (by omega)
      have hne : rem.drop n ≠ [] := by
        apply List.ne_nil_of_length_pos
        rw [List.length_drop]
        omega
      refine ⟨⟨src, rem.drop n, started⟩, ?_, ?_⟩
      · simp only [encRead, hmin]
        rw [if_neg (by simp [hrem] : ¬ (rem.isEmpty = true))]
        rw [if_neg (by simp [List.isEmpty_iff]; omega :
          ¬ ((⟨src, rem.drop n, started⟩ : EncState σ).remainder.isEmpty = true))]
        rw [List.take_append_eq_append_take, Nat.sub_eq_zero_of_le (by omega)]
        simp
      · refine ⟨ecs, hy, ?_⟩
        rw [List.drop_append_eq_append_drop, Nat.sub_eq_zero_of_le (by omega)]
        simp

/-- Correctness of one `Transcoder::read` call. -/
theorem transRead_spec {st : TState} {bs : List Nat} (n : Nat) (h : TPends st bs) :
    ∃ st', transRead n st = (Except.ok (bs.take n), st') ∧ TPends st' (bs.drop n) := by
  cases st with
  | passthrough src =>
    rw [TPends] at h
    subst h
    exact ⟨TState.passthrough (bs.drop n), rfl, rfl⟩
  | fromUTF16 est =>
    rw [TPends] at h
    obtain ⟨est', h1, h2⟩ := encRead_spec n h
    exact ⟨TState.fromUTF16 est', by simp [transRead, h1], h2⟩
  | fromUTF32 est =>
    rw [TPends] at h
    obtain ⟨est', h1, h2⟩ := encRead_spec n h
    exact ⟨TState.fromUTF32 est', by simp [transRead, h1], h2⟩

/-- Reading the transcoder to exhaustion with enough fuel yields exactly
the pending bytes. -/
theorem transReadAllF_spec :
    ∀ (fuel : Nat) (st : TState) (bs : List Nat), TPends st bs → bs.length ≤ fuel →
      ∃ st', transReadAllF fuel st = (Except.ok bs, st') := by
  intro fuel
  induction fuel with
  | zero =>
    intro st bs h hlen
    have : bs = [] := List.eq_nil_of_length_eq_zero (by omega)
    subst this
    exact ⟨st, by simp [transReadAllF]⟩
  | succ fuel ih =>
    intro st bs h hlen
    obtain ⟨st', h1, h2⟩ := transRead_spec (fuel + 1) h
    rw [List.take_of_length_le (by omega)] at h1
    rw [List.drop_eq_nil_of_le (by omega)] at h2
    cases bs with
    | nil =>
      exact ⟨st', by simp [transReadAllF, h1]⟩
    | cons b bs' =>
      obtain ⟨st'', h3⟩ := ih st' [] h2 (by simp)
      refine ⟨st'', ?_⟩
      simp only [transReadAllF]
      rw [h1]
      simp [h3]

/-- Running a schedule of error-free reads yields exactly the first
`ns.sum` pending bytes, leaving the rest pending. -/
theorem transReadSeq_spec :
    ∀ (ns : List Nat) (st : TState) (bs : List Nat), TPends st bs →
      ∃ st', transReadSeq ns st = (bs.take ns.sum, st') ∧ TPends st' (bs.drop ns.sum) := by
  intro ns
  induction ns with
  | nil =>
    intro st bs h
    exact ⟨st, by simp [transReadSeq], by simpa using h⟩
  | cons n ns ih =>
    intro st bs h
    obtain ⟨st', h1, h2⟩ := transRead_spec n h
    obtain ⟨st'', h3, h4⟩ := ih st' (bs.drop n) h2
    refine ⟨st'', ?_, ?_⟩
    · simp only [transReadSeq]
      rw [h1]
      simp only []
      rw [h3, List.sum_cons, List.take_add]
    · rw [List.sum_cons, ← List.drop_drop]
      exact h4

/-- Decoding one serialized UTF-16 code unit with `next_u16` returns the
unit and consumes exactly its two bytes. -/
theorem nextU16_unit (e : Endianness) (u : Nat) (tail : List Nat) (p : Nat) (buf : Option Nat) :
    nextU16 ⟨u16Bytes e u ++ tail, p, e, buf⟩ =
      (Except.ok (some u), ⟨tail, p + 2, e, buf⟩) := by
  cases e with
  | big =>
    have hd : decodeU16 Endianness.big (u / 256) (u % 256) = u := by
      simp [decodeU16]; omega
    simp [u16Bytes, nextU16, hd]
  | little =>
    have hd : decodeU16 Endianness.little (u % 256) (u / 256) = u := by
      simp [decodeU16]; omega
    simp [u16Bytes, nextU16, hd]

/-- The UTF-16 decoder on a serialized unit reduces to the lead-handling
body applied to that unit. -/
theorem u16Next_unit (e : Endianness) (u : Nat) (tail : List Nat) (p : Nat) :
    u16Next ⟨u16Bytes e u ++ tail, p, e, none⟩ =
      u16NextLead ⟨tail, p + 2, e, none⟩ u p := by
  simp only [u16Next, nextU16_unit]

/-- Recombination of a surrogate pair produced by the reference UTF-16
encoder gives back the original scalar value. -/
theorem surrogate_combine (c : Nat) (h1 : 0x10000 ≤ c) (h2 : c < 0x110000) :
    0x10000 + (((0xD800 + (c - 0x10000) / 1024 - 0xD800) <<< 10) |||
      (0xDC00 + (c - 0x10000) % 1024 - 0xDC00)) = c := by
  rw [show 0xD800 + (c - 0x10000) / 1024 - 0xD800 = (c - 0x10000) / 1024 from by omega,
      show 0xDC00 + (c - 0x10000) % 1024 - 0xDC00 = (c - 0x10000) % 1024 from by omega,
      shiftLeft_lor_of_lt (by omega : (c - 0x10000) % 1024 < 2 ^ 10)]
  have hp : (2 : Nat) ^ 10 = 1024 := by norm_num
  rw [hp]
  omega

/-- Decoding a serialized surrogate pair yields the recombined scalar and
consumes exactly its four bytes. -/
theorem u16Next_pair (e : Endianness) (hi lo : Nat) (tail : List Nat) (p : Nat)
    (hhi1 : 0xD800 ≤ hi) (hhi2 : hi < 0xDC00) (hlo1 : 0xDC00 ≤ lo) (hlo2 : lo ≤ 0xDFFF) :
    u16Next ⟨u16Bytes e hi ++ (u16Bytes e lo ++ tail), p, e, none⟩ =
      (some (Except.ok (0x10000 + (((hi - 0xD800) <<< 10) ||| (lo - 0xDC00)))),
       ⟨tail, p + 4, e, none⟩) := by
  have h1 : ¬(hi < 0xD800 ∨ 0xDFFF < hi) := by omega
  have h2 : ¬ 0xDC00 ≤ hi := by omega
  have h3 : ¬(lo < 0xDC00 ∨ 0xDFFF < lo) := by omega
  rw [u16Next_unit]
  simp only [u16NextLead, if_neg h1, if_neg h2, nextU16_unit, if_neg h3]

/-- The UTF-16 decoder inverts the reference UTF-16 encoder: decoding the
serialized form of a scalar sequence yields exactly that sequence. -/
theorem yields_utf16_encode (e : Endianness) :
    ∀ (T : List Nat), AllScalar T → ∀ (p : Nat),
      Yields u16Next ⟨u16BytesAll e (utf16Units T), p, e, none⟩ T := by
  intro T
  induction T with
  | nil =>
    intro _ p
    exact Yields.nil rfl
  | cons c T ih =>
    intro hT p
    obtain ⟨hc1, hc2⟩ := hT c (by simp)
    have hT' : AllScalar T := fun x hx => hT x (by simp [hx])
    by_cases hlt : c < 0x10000
    · rw [utf16Units, utf16EncodeChar, if_pos hlt,
        show ([c] ++ utf16Units T : List Nat) = c :: utf16Units T from rfl, u16BytesAll]
      refine Yields.cons ?_ (ih hT' (p + 2))
      rw [u16Next_unit]
      simp only [u16NextLead, if_pos hc2]
    · rw [utf16Units, utf16EncodeChar, if_neg hlt,
        show ([0xD800 + (c - 0x10000) / 1024, 0xDC00 + (c - 0x10000) % 1024] ++ utf16Units T
          : List Nat) = (0xD800 + (c - 0x10000) / 1024) ::
            (0xDC00 + (c - 0x10000) % 1024) :: utf16Units T from rfl,
        u16BytesAll, u16BytesAll]
      refine Yields.cons ?_ (ih hT' (p + 4))
      rw [u16Next_pair e _ _ _ p (by omega) (by omega) (by omega) (by omega),
        surrogate_combine c (by omega) hc1]

/-- Decoding one serialized UTF-32 code unit yields the scalar value back
and consumes exactly its four bytes. -/
theorem u32Next_unit (e : Endianness) (u : Nat) (tail : List Nat) (p : Nat)
    (hu : u < 0x110000) (hs : u < 0xD800 ∨ 0xDFFF < u) :
    u32Next ⟨u32Bytes e u ++ tail, p, e⟩ = (some (Except.ok u), ⟨tail, p + 4, e⟩) := by
  cases e with
  | big =>
    have hd : decodeU32 Endianness.big (u / 16777216 % 256) (u / 65536 % 256)
        (u / 256 % 256) (u % 256) = u := by
      simp [decodeU32]; omega
    simp only [u32Bytes, List.cons_append, List.nil_append, u32Next, hd]
    rw [if_pos ⟨hu, hs⟩]
  | little =>
    have hd : decodeU32 Endianness.little (u % 256) (u / 256 % 256)
        (u / 65536 % 256) (u / 16777216 % 256) = u := by
      simp [decodeU32]; omega
    simp only [u32Bytes, List.cons_append, List.nil_append, u32Next, hd]
    rw [if_pos ⟨hu, hs⟩]

/-- The UTF-32 decoder inverts the reference UTF-32 serialization:
decoding the serialized form of a scalar sequence yields exactly that
sequence. -/
theorem yields_utf32_encode (e : Endianness) :
    ∀ (T : List Nat), AllScalar T → ∀ (p : Nat),
      Yields u32Next ⟨u32BytesAll e T, p, e⟩ T := by
  intro T
  induction T with
  | nil =>
    intro _ p
    exact Yields.nil rfl
  | cons c T ih =>
    intro hT p
    obtain ⟨hc1, hc2⟩ := hT c (by simp)
    have hT' : AllScalar T := fun x hx => hT x (by simp [hx])
    rw [u32BytesAll]
    exact Yields.cons (u32Next_unit e c _ p hc1 hc2) (ih hT' (p + 4))

/-- Every scalar value successfully produced by the lead-handling body of
the UTF-16 decoder is a Unicode scalar value, and well-formedness of the
decoder state is preserved. -/
theorem u16NextLead_ok_scalar {st st' : U16State} {lead pos c : Nat}
    (hlead : lead < 0x10000) (hsrc : ValidBytes st.source) (hbuf : st.buf = none)
    (h : u16NextLead st lead pos = (some (Except.ok c), st')) :
    (c < 0x110000 ∧ (c < 0xD800 ∨ 0xDFFF < c)) ∧ u16WF st' := by
  rw [u16NextLead] at h
  by_cases h1 : lead < 0xD800 ∨ 0xDFFF < lead
  · rw [if_pos h1] at h
    rw [Prod.mk.injEq] at h
    obtain ⟨ha, rfl⟩ := h
    obtain rfl : lead = c := by simpa using ha
    exact ⟨⟨by omega, h1⟩, hsrc, fun u hu => absurd (hbuf ▸ hu) (by simp)⟩
  · rw [if_neg h1] at h
    by_cases h2 : 0xDC00 ≤ lead
    · rw [if_pos h2] at h
      exact absurd h (by simp)
    · rw [if_neg h2] at h
      obtain ⟨src, p, e, buf⟩ := st
      simp only at hsrc hbuf
      subst hbuf
      match src, hsrc with
      | [], _ => exact absurd h (by simp [nextU16])
      | [b], _ => exact absurd h (by simp [nextU16])
      | b0 :: b1 :: rest, hsrc =>
        have hb0 : b0 < 256 := hsrc b0 (by simp)
        have hb1 : b1 < 256 := hsrc b1 (by simp)
        have htr : decodeU16 e b0 b1 < 0x10000 := by
          cases e <;> simp [decodeU16] <;> omega
        simp only [nextU16] at h
        by_cases h3 : decodeU16 e b0 b1 < 0xDC00 ∨ 0xDFFF < decodeU16 e b0 b1
        · rw [if_pos h3] at h
          exact absurd h (by simp)
        · rw [if_neg h3] at h
          rw [Prod.mk.injEq] at h
          obtain ⟨ha, rfl⟩ := h
          obtain rfl : 0x10000 +
              (((lead - 0xD800) <<< 10) ||| (decodeU16 e b0 b1 - 0xDC00)) = c := by
            simpa using ha
          have hv : ((lead - 0xD800) <<< 10) ||| (decodeU16 e b0 b1 - 0xDC00)
              = (lead - 0xD800) * 2 ^ 10 + (decodeU16 e b0 b1 - 0xDC00) :=
            shiftLeft_lor_of_lt (by omega)
          refine ⟨⟨?_, ?_⟩, ?_, ?_⟩
          · rw [hv]
            have : (2 : Nat) ^ 10 = 1024 := by norm_num
            rw [this]
            omega
          · right
            omega
          · exact fun b hb => hsrc b (by simp [hb])
          · intro u hu
            exact absurd hu (by simp)

/-- Every scalar value successfully produced by one step of the UTF-16
decoder is a Unicode scalar value, preserving state well-formedness. -/
theorem u16Next_ok_scalar {st st' : U16State} {c : Nat} (hwf : u16WF st)
    (h : u16Next st = (some (Except.ok c), st')) :
    (c < 0x110000 ∧ (c < 0xD800 ∨ 0xDFFF < c)) ∧ u16WF st' := by
  obtain ⟨hsrc, hbuf⟩ := hwf
  obtain ⟨src, p, e, buf⟩ := st
  simp only at hsrc hbuf
  cases buf with
  | some u =>
    simp only [u16Next] at h
    exact u16NextLead_ok_scalar (hbuf u rfl) hsrc rfl h
  | none =>
    match src, hsrc with
    | [], _ => exact absurd h (by simp [u16Next, nextU16])
    | [b], _ => exact absurd h (by simp [u16Next, nextU16])
    | b0 :: b1 :: rest, hsrc =>
      have hb0 : b0 < 256 := hsrc b0 (by simp)
      have hb1 : b1 < 256 := hsrc b1 (by simp)
      have hlead : decodeU16 e b0 b1 < 0x10000 := by
        cases e <;> simp [decodeU16] <;> omega
      simp only [u16Next, nextU16] at h
      exact u16NextLead_ok_scalar hlead (fun b hb => hsrc b (by simp [hb])) rfl h

/-- All decoded scalars of an error-free UTF-16 decode run are Unicode
scalar values, given a well-formed starting state. -/
theorem yields_u16_scalar : ∀ {st : U16State} {cs : List Nat},
    Yields u16Next st cs → u16WF st → AllScalar cs := by
  intro st cs h
  induction h with
  | nil _ =>
    intro _ c hc
    exact absurd hc (by simp)
  | cons hf hy ih =>
    intro hwf
    obtain ⟨hc, hwf'⟩ := u16Next_ok_scalar hwf hf
    intro x hx
    rcases List.mem_cons.mp hx with rfl | hx
    · exact hc
    · exact ih hwf' x hx

/-- Every scalar value successfully produced by one step of the UTF-32
decoder is a Unicode scalar value (the decoder checks this itself). -/
theorem u32Next_ok_scalar {st st' : U32State} {c : Nat}
    (h : u32Next st = (some (Except.ok c), st')) :
    c < 0x110000 ∧ (c < 0xD800 ∨ 0xDFFF < c) := by
  obtain ⟨src, p, e⟩ := st
  match src with
  | [] => exact absurd h (by simp [u32Next])
  | [b0] | [b0, b1] | [b0, b1, b2] => exact absurd h (by simp [u32Next])
  | b0 :: b1 :: b2 :: b3 :: rest =>
    simp only [u32Next] at h
    by_cases hc : decodeU32 e b0 b1 b2 b3 < 0x110000 ∧
        (decodeU32 e b0 b1 b2 b3 < 0xD800 ∨ 0xDFFF < decodeU32 e b0 b1 b2 b3)
    · rw [if_pos hc] at h
      rw [Prod.mk.injEq] at h
      obtain ⟨ha, rfl⟩ := h
      obtain rfl : decodeU32 e b0 b1 b2 b3 = c := by simpa using ha
      exact hc
    · rw [if_neg hc] at h
      exact absurd h (by simp)

/-- All decoded scalars of an error-free UTF-32 decode run are Unicode
scalar values. -/
theorem yields_u32_scalar : ∀ {st : U32State} {cs : List Nat},
    Yields u32Next st cs → AllScalar cs := by
  intro st cs h
  induction h with
  | nil _ =>
    intro c hc
    exact absurd hc (by simp)
  | cons hf hy ih =>
    intro x hx
    rcases List.mem_cons.mp hx with rfl | hx
    · exact u32Next_ok_scalar hf
    · exact ih x hx

/-- Stripping a leading BOM preserves scalarity. -/
theorem allScalar_stripLeadingBom {cs : List Nat} (h : AllScalar cs) :
    AllScalar (stripLeadingBom cs) := by
  cases cs with
  | nil => exact h
  | cons c cs =>
    rw [stripLeadingBom]
    by_cases hc : c = 0xFEFF
    · rw [if_pos hc]
      exact fun x hx => h x (by simp [hx])
    · rw [if_neg hc]
      exact h

/-- A freshly constructed re-encoder over a source that yields `cs` has
exactly the UTF-8 encoding of the BOM-stripped `cs` pending. -/
theorem epends_encNew {σ : Type} {f : σ → Option (Except Err Nat) × σ} {src : σ}
    {cs : List Nat} (h : Yields f src cs) :
    EPends f (encNew src) (utf8Encode (stripLeadingBom cs)) :=
  ⟨stripLeadingBom cs, ⟨cs, h, by simp [encNew]⟩, by simp [encNew]⟩

/-- Taking up to the available length is the same as taking the requested
amount. -/
theorem take_min_length (l : List Nat) (k : Nat) : l.take (min k l.length) = l.take k := by
  by_cases hk : k ≤ l.length
  · rw [Nat.min_eq_left hk]
  · rw [Nat.min_eq_right (by omega), List.take_length, List.take_of_length_le (by omega)]

/-- A fresh capturing reader satisfies the capture invariant for its own
stream. -/
theorem crInv_new (C : List Nat) : crInv C (chunkReaderNew C) :=
  ⟨by simp [chunkReaderNew], by simp [chunkReaderNew], by simp [chunkReaderNew]⟩

/-- One read call preserves the capture invariant. -/
theorem crInv_read {C : List Nat} {st : ChunkReader} (k : Nat) (h : crInv C st) :
    crInv C (crRead k st).2 := by
  obtain ⟨rd, cap, s⟩ := st
  obtain ⟨h1, h2, h3⟩ := h
  simp only at h1 h2 h3
  subst h2
  refine ⟨?_, ?_, ?_⟩
  · simp only [crRead, List.length_append, List.length_take, List.length_drop]
    omega
  · simp only [crRead, List.drop_drop, List.length_append, List.length_take, List.length_drop]
    by_cases hk : k ≤ C.length - (s + cap.length)
    · rw [show s + (cap.length + min k (C.length - (s + cap.length)))
          = s + cap.length + k from by omega]
    · have ha : List.drop (s + cap.length + k) C = [] :=
        List.drop_eq_nil_of_le (by omega)
      have hb : List.drop (s + (cap.length + min k (C.length - (s + cap.length)))) C = [] :=
        List.drop_eq_nil_of_le (by omega)
      rw [ha, hb]
  · simp only [crRead, List.length_append, List.length_take, List.length_drop]
    rw [List.take_add, ← h3, List.drop_drop]
    congr 1
    rw [← List.length_drop, take_min_length]

/-- Trimming the capture buffer to an in-range offset preserves the
capture invariant. -/
theorem crInv_trim {C : List Nat} {st : ChunkReader} {p : Nat} (h : crInv C st)
    (hp1 : st.captureStartPos ≤ p) (hp2 : p ≤ st.captureStartPos + st.capture.length) :
    crInv C (trimToStart p st) := by
  obtain ⟨rd, cap, s⟩ := st
  obtain ⟨h1, h2, h3⟩ := h
  simp only at h1 h2 h3 hp1 hp2
  refine ⟨?_, ?_, ?_⟩
  · simp only [trimToStart, List.length_drop]
    omega
  · simp only [trimToStart, List.length_drop]
    rw [h2]
    congr 1
    omega
  · simp only [trimToStart, List.length_drop]
    rw [h3, List.drop_take, List.drop_drop]
    have hlen : cap.length = (C.drop s).length ⊓ cap.length := by
      conv_lhs => rw [h3]
      rw [List.length_take]
      omega
    rw [show s + (p - s) = p from by omega]
    congr 1
    rw [List.length_take]
    omega

/-- The bytes captured between two in-range offsets are exactly the
corresponding segment of the canonical stream. -/
theorem cr_span {C : List Nat} {st : ChunkReader} {p1 p2 : Nat} (h : crInv C st)
    (h1 : st.captureStartPos ≤ p1) (h12 : p1 ≤ p2)
    (h2 : p2 ≤ st.captureStartPos + st.capture.length) :
    (takeToEnd p2 (trimToStart p1 st)).1 = (C.drop p1).take (p2 - p1) := by
  obtain ⟨hinv1, hinv2, hinv3⟩ := crInv_trim h h1 (by omega)
  simp only [takeToEnd]
  rw [hinv3]
  simp only [trimToStart, List.length_drop]
  rw [List.take_take]
  congr 1
  omega

/-- The 2-byte stage of detection agrees with its specification reading. -/
theorem detect2_eq (p : List Nat) : detect2 p = detect2Spec p := by
  match p with
  | [] => rfl
  | [a] => rfl
  | a :: b :: r => simp [detect2, detect2Spec]

/-- Full detection agrees with its specification reading. -/
theorem detect_eq_detectSpec : ∀ p : List Nat, detect p = detectSpec p := by
  intro p
  match p with
  | [] => rfl
  | [a] => rfl
  | [a, b] => simp [detect, detectSpec, detect2_eq]
  | [a, b, c] => simp [detect, detectSpec, detect2_eq]
  | a :: b :: c :: d :: r => simp [detect, detectSpec, detect2_eq]

/-- C3: for every capturing reader state satisfying the capture invariant
for canonical stream `C`, and all offsets `p1 ≤ p2` within the bytes
captured so far with `capture_start_pos ≤ p1`, calling `trim_to_start(p1)`
and then `take_to_end(p2)` returns exactly the bytes of the canonical
stream in the half-open range `[p1, p2)`. -/
theorem take_after_trim_returns_span (C : List Nat) (st : ChunkReader) (p1 p2 : Nat)
    (h : crInv C st) (h1 : st.captureStartPos ≤ p1) (h12 : p1 ≤ p2)
    (h2 : p2 ≤ st.captureStartPos + st.capture.length) :
    (takeToEnd p2 (trimToStart p1 st)).1 = (C.drop p1).take (p2 - p1) :=
  cr_span h h1 h12 h2

/-- Witness for C3 at a concrete state: the reader has captured the whole
canonical stream `[10, 11, 12, 13, 14]` from position 0; trimming to 1 and
taking to 3 yields the canonical bytes in `[1, 3)`. -/
theorem take_after_trim_returns_span_witness :
    (takeToEnd 3 (trimToStart 1 ⟨[], [10, 11, 12, 13, 14], 0⟩)).1 =
      (([10, 11, 12, 13, 14] : List Nat).drop 1).take (3 - 1) :=
  take_after_trim_returns_span [10, 11, 12, 13, 14] ⟨[], [10, 11, 12, 13, 14], 0⟩ 1 3
    (by exact ⟨by decide, by decide, by decide⟩) (by decide) (by decide) (by decide)

/-- C4: the capturing reader maintains the invariant that the capture
buffer holds exactly the canonical-stream bytes in
`[capture_start_pos, capture_start_pos + capture.len())` and that
`capture_start_pos + capture.len()` equals the total number of bytes read
from the underlying canonical stream so far; the invariant holds initially
and is preserved by `read`, by `trim_to_start` with an in-range offset,
and by `take_to_end` with an in-range offset. -/
theorem chunkReader_capture_invariant (C : List Nat) (st : ChunkReader) (k p q : Nat)
    (h : crInv C st)
    (hp1 : st.captureStartPos ≤ p) (hp2 : p ≤ st.captureStartPos + st.capture.length)
    (hq1 : st.captureStartPos ≤ q) (hq2 : q ≤ st.captureStartPos + st.capture.length) :
    crInv C (chunkReaderNew C) ∧
    st.captureStartPos + st.capture.length = C.length - st.reader.length ∧
    crInv C (crRead k st).2 ∧
    crInv C (trimToStart p st) ∧
    crInv C (takeToEnd q st).2 := by
  refine ⟨crInv_new C, ?_, crInv_read k h, crInv_trim h hp1 hp2, ?_⟩
  · obtain ⟨h1, h2, _⟩ := h
    rw [h2, List.length_drop]
    omega
  · exact crInv_trim h hq1 hq2

/-- Witness for C4 at a concrete state: reading 3 more bytes, trimming to
1 and extracting to 2 all preserve the invariant over the canonical stream
`[10, 11, 12, 13, 14]`. -/
theorem chunkReader_capture_invariant_witness :
    crInv [10, 11, 12, 13, 14] (chunkReaderNew [10, 11, 12, 13, 14]) ∧
    (⟨[13, 14], [11, 12], 1⟩ : ChunkReader).captureStartPos +
      (⟨[13, 14], [11, 12], 1⟩ : ChunkReader).capture.length =
      ([10, 11, 12, 13, 14] : List Nat).length -
      (⟨[13, 14], [11, 12], 1⟩ : ChunkReader).reader.length ∧
    crInv [10, 11, 12, 13, 14] (crRead 3 ⟨[13, 14], [11, 12], 1⟩).2 ∧
    crInv [10, 11, 12, 13, 14] (trimToStart 2 ⟨[13, 14], [11, 12], 1⟩) ∧
    crInv [10, 11, 12, 13, 14] (takeToEnd 2 ⟨[13, 14], [11, 12], 1⟩).2 :=
  chunkReader_capture_invariant [10, 11, 12, 13, 14] ⟨[13, 14], [11, 12], 1⟩ 3 2 2
    (by exact ⟨by decide, by decide, by decide⟩) (by decide) (by decide) (by decide) (by decide)

/-- C7: when the UTF-16 decoder reads a low-surrogate code unit (value in
`0xDC00..=0xDFFF`) with no pending lead surrogate, its next item is an
error carrying that code unit's value and its starting byte offset, and
the decoder state moves past the unit (source advanced by two bytes, no
retained lead), so decoding continues with the following code unit. -/
theorem utf16_unpaired_low_surrogate_error (e : Endianness) (b0 b1 : Nat)
    (rest : List Nat) (p : Nat)
    (h1 : 0xDC00 ≤ decodeU16 e b0 b1) (h2 : decodeU16 e b0 b1 ≤ 0xDFFF) :
    u16Next ⟨b0 :: b1 :: rest, p, e, none⟩ =
      (some (Except.error (Err.encodingError (decodeU16 e b0 b1) p)),
       ⟨rest, p + 2, e, none⟩) := by
  simp only [u16Next, nextU16, u16NextLead]
  rw [if_neg (by omega : ¬(decodeU16 e b0 b1 < 0xD800 ∨ 0xDFFF < decodeU16 e b0 b1)),
    if_pos h1]

/-- Witness for C7: the claim's scenario, an unpaired low surrogate `DC 00`
(big-endian) at byte offset 2, yields a positioned error with value
`0xDC00` at offset 2 and decoding continues with the following unit. -/
theorem utf16_unpaired_low_surrogate_error_witness :
    u16Next ⟨[0xDC, 0x00, 0x00, 0x42], 2, Endianness.big, none⟩ =
      (some (Except.error (Err.encodingError 0xDC00 2)),
       ⟨[0x00, 0x42], 4, Endianness.big, none⟩) :=
  utf16_unpaired_low_surrogate_error Endianness.big 0xDC 0x00 [0x00, 0x42] 2
    (by decide) (by decide)

/-- C8: after the UTF-16 decoder reads a high (leading) surrogate, (a) if
the stream ends it yields an unexpected-end-of-stream error; (b) if the
next code unit is not a valid low surrogate it yields a positioned error
at that unit's byte offset and retains that unit as the lead candidate for
the next call; (c) otherwise it yields the scalar value
`0x10000 + ((lead - 0xD800) <<< 10 ||| (trail - 0xDC00))`. -/
theorem utf16_high_surrogate_cases (e : Endianness) (b0 b1 : Nat) (p : Nat)
    (h1 : 0xD800 ≤ decodeU16 e b0 b1) (h2 : decodeU16 e b0 b1 < 0xDC00) :
    (u16Next ⟨[b0, b1], p, e, none⟩ =
      (some (Except.error Err.unexpectedEof), ⟨[], p + 2, e, none⟩)) ∧
    (∀ t0 t1 rest, ¬(0xDC00 ≤ decodeU16 e t0 t1 ∧ decodeU16 e t0 t1 ≤ 0xDFFF) →
      u16Next ⟨b0 :: b1 :: t0 :: t1 :: rest, p, e, none⟩ =
        (some (Except.error (Err.encodingError (decodeU16 e t0 t1) (p + 2))),
         ⟨rest, p + 4, e, some (decodeU16 e t0 t1)⟩)) ∧
    (∀ t0 t1 rest, 0xDC00 ≤ decodeU16 e t0 t1 → decodeU16 e t0 t1 ≤ 0xDFFF →
      u16Next ⟨b0 :: b1 :: t0 :: t1 :: rest, p, e, none⟩ =
        (some (Except.ok (0x10000 + (((decodeU16 e b0 b1 - 0xD800) <<< 10) |||
          (decodeU16 e t0 t1 - 0xDC00)))),
         ⟨rest, p + 4, e, none⟩)) := by
  refine ⟨?_, ?_, ?_⟩
  · simp only [u16Next, nextU16, u16NextLead]
    rw [if_neg (by omega : ¬(decodeU16 e b0 b1 < 0xD800 ∨ 0xDFFF < decodeU16 e b0 b1)),
      if_neg (by omega : ¬ 0xDC00 ≤ decodeU16 e b0 b1)]
  · intro t0 t1 rest ht
    simp only [u16Next, nextU16, u16NextLead]
    rw [if_neg (by omega : ¬(decodeU16 e b0 b1 < 0xD800 ∨ 0xDFFF < decodeU16 e b0 b1)),
      if_neg (by omega : ¬ 0xDC00 ≤ decodeU16 e b0 b1),
      if_pos (by omega : decodeU16 e t0 t1 < 0xDC00 ∨ 0xDFFF < decodeU16 e t0 t1)]
  · intro t0 t1 rest ht1 ht2
    simp only [u16Next, nextU16, u16NextLead]
    rw [if_neg (by omega : ¬(decodeU16 e b0 b1 < 0xD800 ∨ 0xDFFF < decodeU16 e b0 b1)),
      if_neg (by omega : ¬ 0xDC00 ≤ decodeU16 e b0 b1),
      if_neg (by omega : ¬(decodeU16 e t0 t1 < 0xDC00 ∨ 0xDFFF < decodeU16 e t0 t1))]

/-- Witness for C8 with a big-endian lead `D8 00` at offset 0: end of
stream yields an unexpected-end-of-stream error; an invalid trail `00 41`
yields a positioned error at offset 2 retaining `0x41` as lead candidate;
a valid trail `DC 00` combines to the scalar `0x10000`. -/
theorem utf16_high_surrogate_cases_witness :
    (u16Next ⟨[0xD8, 0x00], 0, Endianness.big, none⟩ =
      (some (Except.error Err.unexpectedEof), ⟨[], 2, Endianness.big, none⟩)) ∧
    (u16Next ⟨[0xD8, 0x00, 0x00, 0x41], 0, Endianness.big, none⟩ =
      (some (Except.error (Err.encodingError 0x41 2)),
       ⟨[], 4, Endianness.big, some 0x41⟩)) ∧
    (u16Next ⟨[0xD8, 0x00, 0xDC, 0x00], 0, Endianness.big, none⟩ =
      (some (Except.ok 0x10000), ⟨[], 4, Endianness.big, none⟩)) := by
  have h := utf16_high_surrogate_cases Endianness.big 0xD8 0x00 0 (by decide) (by decide)
  exact ⟨h.1, h.2.1 0x00 0x41 [] (by decide), h.2.2 0xDC 0x00 [] (by decide) (by decide)⟩

/-- C9: for every state of the UTF-8 re-encoder, a read with a zero-length
output buffer returns 0 bytes and leaves the state unchanged: no character
is pulled from the scalar-value source and no carry-over byte is
consumed. -/
theorem encoder_read_zero_length {σ : Type} (f : σ → Option (Except Err Nat) × σ)
    (st : EncState σ) : encRead f 0 st = (Except.ok [], st) := by
  obtain ⟨src, rem, started⟩ := st
  by_cases h : rem = []
  · subst h
    simp [encRead, encLoopF]
  · simp only [encRead]
    rw [if_neg (by simp [List.isEmpty_iff, h])]
    simp
    exact fun h' => absurd h' h

/-- C10: for every state of the UTF-8 re-encoder and every non-empty
output buffer, a successful read returns no bytes exactly when the carry
buffer is empty and the scalar-value source is exhausted (`next_char`
reports end of stream, which includes the case where the only remaining
character was a stripped leading BOM); whenever a character or a carry
byte is available, at least one byte is written — so a zero return
unambiguously signals end of stream. -/
theorem encoder_read_zero_iff_source_exhausted {σ : Type}
    (f : σ → Option (Except Err Nat) × σ) (st : EncState σ) (n : Nat)
    (out : List Nat) (st' : EncState σ)
    (hn : 1 ≤ n) (h : encRead f n st = (Except.ok out, st')) :
    out = [] ↔ st.remainder = [] ∧ (nextChar f st).1 = none := by
  obtain ⟨src, rem, started⟩ := st
  obtain ⟨m, rfl⟩ : ∃ m, n = m + 1 := ⟨n - 1, by omega⟩
  by_cases hrem : rem = []
  · subst hrem
    rw [show encRead f (m + 1) ⟨src, [], started⟩
        = encLoopF f (m + 1) (m + 1) ⟨src, [], started⟩ from rfl] at h
    simp only [encLoopF] at h
    rcases hnc : nextChar f ⟨src, [], started⟩ with ⟨r, st₂⟩
    rcases r with _ | r2
    · have hout : out = [] := by
        by_cases h4 : 4 ≤ m + 1
        · rw [if_pos h4] at h
          simp only [hnc, Prod.mk.injEq, Except.ok.injEq] at h
          simpa using h.1
        · rw [if_neg h4, if_neg (by omega : ¬ m + 1 = 0)] at h
          simp only [hnc, Prod.mk.injEq, Except.ok.injEq] at h
          simpa using h.1
      subst hout
      simp [hnc]
    · rcases r2 with e | c
      · exfalso
        by_cases h4 : 4 ≤ m + 1
        · rw [if_pos h4] at h
          simp only [hnc] at h
          exact absurd h (by simp)
        · rw [if_neg h4, if_neg (by omega : ¬ m + 1 = 0)] at h
          simp only [hnc] at h
          exact absurd h (by simp)
      · have hbs : encodeUtf8 c ≠ [] :=
          List.ne_nil_of_length_pos (encodeUtf8_length_pos c)
        have hout : out ≠ [] := by
          by_cases h4 : 4 ≤ m + 1
          · rw [if_pos h4] at h
            simp only [hnc] at h
            rcases hrec : encLoopF f m (m + 1 - (encodeUtf8 c).length) st₂ with ⟨r3, st₃⟩
            rw [hrec] at h
            rcases r3 with e3 | out2
            · simp [afterOk] at h
            · simp only [afterOk, Prod.mk.injEq, Except.ok.injEq] at h
              intro hc
              rw [hc] at h
              simp only [List.append_eq_nil] at h
              exact hbs h.1.1
          · rw [if_neg h4, if_neg (by omega : ¬ m + 1 = 0)] at h
            simp only [hnc] at h
            have hemin : 1 ≤ min (encodeUtf8 c).length (m + 1) := by
              have := encodeUtf8_length_pos c
              omega
            by_cases hem : min (encodeUtf8 c).length (m + 1) < m + 1
            · rw [if_pos hem] at h
              rcases hrec : encLoopF f m (m + 1 - min (encodeUtf8 c).length (m + 1)) st₂
                with ⟨r3, st₃⟩
              rw [hrec] at h
              rcases r3 with e3 | out2
              · simp [afterOk] at h
              · simp only [afterOk, Prod.mk.injEq, Except.ok.injEq] at h
                intro hc
                rw [hc] at h
                simp only [List.append_eq_nil, List.take_eq_nil_iff] at h
                rcases h.1.1 with h6 | h6
                · first
                  | exact hbs h6
                  | omega
                · first
                  | exact hbs h6
                  | omega
            · rw [if_neg hem] at h
              simp only [Prod.mk.injEq, Except.ok.injEq] at h
              intro hc
              rw [hc] at h
              rw [List.take_eq_nil_iff] at h
              rcases h.1 with h6 | h6
              · first
                | exact hbs h6
                | omega
              · first
                | exact hbs h6
                | omega
        constructor
        · intro hc
          exact absurd hc hout
        · intro hc
          exact absurd hc.2 (by simp)
  · have hout : out ≠ [] := by
      simp only [encRead] at h
      rw [if_neg (by simp [List.isEmpty_iff, hrem])] at h
      by_cases hk : rem.length ≤ m + 1
      · have hmin : min rem.length (m + 1) = rem.length := Nat.min_eq_left hk
        rw [hmin] at h
        rw [if_pos (by simp)] at h
        rcases hrec : encLoopF f (m + 1 - rem.length) (m + 1 - rem.length)
            ⟨src, List.drop rem.length rem, started⟩ with ⟨r3, st₃⟩
        rw [hrec] at h
        rcases r3 with e3 | out2
        · simp [afterOk] at h
        · simp only [afterOk, Prod.mk.injEq, Except.ok.injEq] at h
          intro hc
          rw [hc] at h
          simp only [List.append_eq_nil, List.take_eq_nil_iff] at h
          rcases h.1.1 with h6 | h6
          · first
            | exact hrem h6
            | exact hrem (List.length_eq_zero.mp h6)
          · first
            | exact hrem h6
            | exact hrem (List.length_eq_zero.mp h6)
      · have hmin : min rem.length (m + 1) = m + 1 := Nat.min_eq_right (by omega)
        rw [hmin] at h
        rw [if_neg (by
          simp only [List.isEmpty_iff]
          apply List.ne_nil_of_length_pos
          rw [List.length_drop]
          omega)] at h
        simp only [Prod.mk.injEq, Except.ok.injEq] at h
        intro hc
        rw [hc] at h
        rw [List.take_eq_nil_iff] at h
        rcases h.1 with h6 | h6
        · first
          | exact hrem h6
          | omega
        · first
          | exact hrem h6
          | omega
    constructor
    · intro hc
      exact absurd hc hout
    · intro hc
      exact absurd hc.1 hrem

/-- Witness for C10: on an already exhausted UTF-16 source, a 1-byte read
returns no bytes, and indeed the carry buffer is empty and `next_char`
reports end of stream. -/
theorem encoder_read_zero_iff_source_exhausted_witness :
    ([] : List Nat) = [] ↔
      (encNew (U16State.mk [] 0 Endianness.big none)).remainder = [] ∧
      (nextChar u16Next (encNew (U16State.mk [] 0 Endianness.big none))).1 = none :=
  encoder_read_zero_iff_source_exhausted u16Next
    (encNew (U16State.mk [] 0 Endianness.big none)) 1 []
    ⟨U16State.mk [] 0 Endianness.big none, [], true⟩ (by decide) rfl

/-- Counterexample to C1 as stated: in the UTF-8 passthrough case the
Transcoder performs no BOM stripping (and no validation).  For the UTF-8
stream `EF BB BF 41` — the text U+FEFF 'A', whose decoded content with the
single leading BOM removed is 'A' — reading the Transcoder to exhaustion
returns the original four bytes, which differ from the BOM-stripped
re-encoding `41`. -/
theorem transcoder_utf8_passthrough_keeps_bom :
    (transReadAllF 8 (transcoderNew Encoding.UTF8 [0xEF, 0xBB, 0xBF, 0x41])).1 =
      Except.ok [0xEF, 0xBB, 0xBF, 0x41] ∧
    ([0xEF, 0xBB, 0xBF, 0x41] : List Nat) ≠ utf8Encode (stripLeadingBom [0xFEFF, 0x41]) :=
  ⟨rfl, by decide⟩

/-- C1 (amended): for every source stream of octets in one of the four
non-UTF-8 supported encodings (UTF16BE, UTF16LE, UTF32BE, UTF32LE) whose
decoder yields the scalar values `cs` with no error, the byte sequence
obtained by reading the Transcoder to exhaustion is valid UTF-8 and equals
the UTF-8 encoding of the decoded text content with a single leading
byte-order mark (U+FEFF) removed.  (The UTF-8 passthrough case is
excluded: there the bytes pass through unchanged, with no validation or
BOM stripping.) -/
theorem transcoder_yields_bom_stripped_utf8 (e : Encoding) (bytes cs : List Nat) (fuel : Nat)
    (hb : ValidBytes bytes) (hd : decodesTo e bytes cs)
    (hfuel : (utf8Encode (stripLeadingBom cs)).length ≤ fuel) :
    (transReadAllF fuel (transcoderNew e bytes)).1 =
      Except.ok (utf8Encode (stripLeadingBom cs)) ∧
    Utf8Valid (utf8Encode (stripLeadingBom cs)) := by
  have hsc : AllScalar cs := by
    cases e with
    | UTF8 => exact absurd hd (by simp [decodesTo])
    | UTF16BE => exact yields_u16_scalar hd ⟨hb, fun u hu => by simp at hu⟩
    | UTF16LE => exact yields_u16_scalar hd ⟨hb, fun u hu => by simp at hu⟩
    | UTF32BE => exact yields_u32_scalar hd
    | UTF32LE => exact yields_u32_scalar hd
  have hpend : TPends (transcoderNew e bytes) (utf8Encode (stripLeadingBom cs)) := by
    cases e with
    | UTF8 => exact absurd hd (by simp [decodesTo])
    | UTF16BE => exact epends_encNew hd
    | UTF16LE => exact epends_encNew hd
    | UTF32BE => exact epends_encNew hd
    | UTF32LE => exact epends_encNew hd
  obtain ⟨st', hall⟩ := transReadAllF_spec fuel _ _ hpend hfuel
  exact ⟨by rw [hall], ⟨stripLeadingBom cs, allScalar_stripLeadingBom hsc, rfl⟩⟩

/-- Witness for C1 (amended): the UTF-16BE stream `FE FF 00 41` (BOM +
'A') decodes to `[U+FEFF, 'A']`; the Transcoder yields the single byte
`41` — valid UTF-8 with the BOM removed. -/
theorem transcoder_yields_bom_stripped_utf8_witness :
    (transReadAllF 4 (transcoderNew Encoding.UTF16BE [0xFE, 0xFF, 0x00, 0x41])).1 =
      Except.ok (utf8Encode (stripLeadingBom [0xFEFF, 0x41])) ∧
    Utf8Valid (utf8Encode (stripLeadingBom [0xFEFF, 0x41])) :=
  transcoder_yields_bom_stripped_utf8 Encoding.UTF16BE [0xFE, 0xFF, 0x00, 0x41]
    [0xFEFF, 0x41] 4
    (by decide : ∀ b ∈ [(0xFE : Nat), 0xFF, 0x00, 0x41], b < 256)
    (Yields.cons rfl (Yields.cons rfl (Yields.nil rfl)))
    (by decide)

/-- Counterexample to C2 as stated: with the optional BOM present and
`E = UTF8`, the round trip fails, because the UTF-8 passthrough does not
strip the encoded BOM.  Encoding the text 'A' as UTF-8 preceded by a BOM
gives `EF BB BF 41`; the pipeline returns those bytes unchanged, which
differ from the UTF-8 bytes of 'A'. -/
theorem roundtrip_fails_for_utf8_with_bom :
    encodeAs Encoding.UTF8 true [0x41] = [0xEF, 0xBB, 0xBF, 0x41] ∧
    (transReadAllF 8 (transcoderNew Encoding.UTF8 (encodeAs Encoding.UTF8 true [0x41]))).1 =
      Except.ok [0xEF, 0xBB, 0xBF, 0x41] ∧
    ([0xEF, 0xBB, 0xBF, 0x41] : List Nat) ≠ utf8Encode [0x41] :=
  ⟨rfl, rfl, by decide⟩

/-- C2 (amended): for every supported encoding E and every sequence T of
Unicode scalar values, encoding T in E's byte order with the canonical BOM
convention — preceded by a BOM for the UTF-16/UTF-32 encodings, no BOM for
UTF-8 — and running the result through the transcoding pipeline yields
exactly the UTF-8 bytes of T (round-trip fidelity). -/
theorem transcode_roundtrip (e : Encoding) (T : List Nat) (fuel : Nat)
    (hT : AllScalar T) (hfuel : (utf8Encode T).length ≤ fuel) :
    (transReadAllF fuel (transcoderNew e (encodeAs e (usesBom e) T))).1 =
      Except.ok (utf8Encode T) := by
  have hbomT : AllScalar (0xFEFF :: T) := by
    intro c hc
    rcases List.mem_cons.mp hc with rfl | hc
    · exact ⟨by norm_num, by norm_num⟩
    · exact hT c hc
  have hstrip : stripLeadingBom (0xFEFF :: T) = T := by
    rw [stripLeadingBom, if_pos rfl]
  cases e with
  | UTF8 =>
    have hpend : TPends (transcoderNew Encoding.UTF8
        (encodeAs Encoding.UTF8 (usesBom Encoding.UTF8) T)) (utf8Encode T) := by
      simp [TPends, transcoderNew, encodeAs, usesBom]
    obtain ⟨st', hall⟩ := transReadAllF_spec fuel _ _ hpend hfuel
    rw [hall]
  | UTF16BE =>
    have h0 := epends_encNew (yields_utf16_encode Endianness.big (0xFEFF :: T) hbomT 0)
    rw [hstrip] at h0
    have hpend : TPends (transcoderNew Encoding.UTF16BE
        (encodeAs Encoding.UTF16BE (usesBom Encoding.UTF16BE) T)) (utf8Encode T) := h0
    obtain ⟨st', hall⟩ := transReadAllF_spec fuel _ _ hpend hfuel
    rw [hall]
  | UTF16LE =>
    have h0 := epends_encNew (yields_utf16_encode Endianness.little (0xFEFF :: T) hbomT 0)
    rw [hstrip] at h0
    have hpend : TPends (transcoderNew Encoding.UTF16LE
        (encodeAs Encoding.UTF16LE (usesBom Encoding.UTF16LE) T)) (utf8Encode T) := h0
    obtain ⟨st', hall⟩ := transReadAllF_spec fuel _ _ hpend hfuel
    rw [hall]
  | UTF32BE =>
    have h0 := epends_encNew (yields_utf32_encode Endianness.big (0xFEFF :: T) hbomT 0)
    rw [hstrip] at h0
    have hpend : TPends (transcoderNew Encoding.UTF32BE
        (encodeAs Encoding.UTF32BE (usesBom Encoding.UTF32BE) T)) (utf8Encode T) := h0
    obtain ⟨st', hall⟩ := transReadAllF_spec fuel _ _ hpend hfuel
    rw [hall]
  | UTF32LE =>
    have h0 := epends_encNew (yields_utf32_encode Endianness.little (0xFEFF :: T) hbomT 0)
    rw [hstrip] at h0
    have hpend : TPends (transcoderNew Encoding.UTF32LE
        (encodeAs Encoding.UTF32LE (usesBom Encoding.UTF32LE) T)) (utf8Encode T) := h0
    obtain ⟨st', hall⟩ := transReadAllF_spec fuel _ _ hpend hfuel
    rw [hall]

/-- Witness for C2 (amended): the text 'A' written as UTF-16LE with a BOM
round-trips through the pipeline to the UTF-8 byte `41`. -/
theorem transcode_roundtrip_witness :
    (transReadAllF 4 (transcoderNew Encoding.UTF16LE
        (encodeAs Encoding.UTF16LE (usesBom Encoding.UTF16LE) [0x41]))).1 =
      Except.ok (utf8Encode [0x41]) :=
  transcode_roundtrip Encoding.UTF16LE [0x41] 4
    (by decide : ∀ c ∈ [(0x41 : Nat)], c < 0x110000 ∧ (c < 0xD800 ∨ 0xDFFF < c))
    (by decide)

/-- Counterexample to C5 as stated: on a stream whose decode hits an
error, the concatenated yield depends on the chunking of the reads.  For
the UTF-16BE stream `00 41 DC 00 00 42` ('A', an unpaired low surrogate,
'B'), byte-at-a-time reads yield `41` and then `42`; with an 8-byte buffer
the first read fails after consuming 'A' (its byte is dropped) and the
total yield is just `42`. -/
theorem read_chunking_not_independent_on_error :
    (transReadSeq [1, 1, 1, 1] (transcoderNew Encoding.UTF16BE
        [0x00, 0x41, 0xDC, 0x00, 0x00, 0x42])).1 = [0x41, 0x42] ∧
    (transReadSeq [8, 8] (transcoderNew Encoding.UTF16BE
        [0x00, 0x41, 0xDC, 0x00, 0x00, 0x42])).1 = [0x42] ∧
    ([0x41, 0x42] : List Nat) ≠ [0x42] :=
  ⟨rfl, rfl, by decide⟩

/-- C5 (amended): for every transcoder state whose pending decode is
error-free, with pending bytes `bs`, the concatenation of the bytes the
Transcoder yields is independent of the read chunking: any schedule of
reads whose sizes sum to at least `bs.length` yields exactly `bs`, the
same as one single read with an unbounded buffer (no byte is dropped or
duplicated). -/
theorem read_size_independence (st : TState) (bs ns : List Nat) (m : Nat)
    (h : TPends st bs) (hns : bs.length ≤ ns.sum) (hm : bs.length ≤ m) :
    (transReadSeq ns st).1 = bs ∧ (transReadSeq [m] st).1 = bs := by
  obtain ⟨st1, h1, _⟩ := transReadSeq_spec ns st bs h
  obtain ⟨st2, h2, _⟩ := transReadSeq_spec [m] st bs h
  constructor
  · rw [h1]
    show bs.take ns.sum = bs
    exact List.take_of_length_le (by omega)
  · rw [h2]
    show bs.take ([m] : List Nat).sum = bs
    rw [show ([m] : List Nat).sum = m from by simp]
    exact List.take_of_length_le (by omega)

/-- Witness for C5 (amended): the UTF-16BE stream `00 41` pends the single
byte `41`; both the schedule of two 1-byte reads and one 8-byte read yield
exactly it. -/
theorem read_size_independence_witness :
    (transReadSeq [1, 1] (transcoderNew Encoding.UTF16BE [0x00, 0x41])).1 = [0x41] ∧
    (transReadSeq [8] (transcoderNew Encoding.UTF16BE [0x00, 0x41])).1 = [0x41] :=
  read_size_independence (transcoderNew Encoding.UTF16BE [0x00, 0x41]) [0x41] [1, 1] 8
    (by exact ⟨[0x41], ⟨[0x41], Yields.cons rfl (Yields.nil rfl), rfl⟩, rfl⟩)
    (by decide) (by decide)

end YamlSplit
